import Mathlib

/-!
Verification of the pyabc2 core: ABC duration shorthand arithmetic, the
repeat/ending expansion engine, the flattened melody view (tie merging),
broken rhythm, the duration validator, and the Pitch/Note hierarchy.

The Python modules implementing the core are not part of this snapshot
(only documentation, release notes and example notebooks are), so every
definition below is modelled from the specification's description of the
core, as marked in its doc comment.
-/

namespace PyABC2

/-- Modelled from the spec: "Duration: an exact rational number
(numerator/denominator), always reduced".  Lean's `Rat` is an exact,
always-reduced rational, so it is the model of the `Fraction` values the
core uses. -/
abbrev Duration := Rat

/-- Modelled from the spec: numeric value of a decimal digit character
(the tokenizer reads duration digits from the token text). -/
def digitVal (ch : Char) : Nat := ch.toNat - 48

/-- Modelled from the spec: read a maximal run of decimal digits from the
front of the character list, accumulating their decimal value. -/
def readDigits : List Char → Nat → Nat × List Char
  | [], acc => (acc, [])
  | c :: cs, acc =>
    if c.isDigit then readDigits cs (acc * 10 + digitVal c) else (acc, c :: cs)

/-- Modelled from the spec: count a maximal run of `/` characters at the
front of the character list (shorthand halving marks). -/
def countSlashes : List Char → Nat × List Char
  | [] => (0, [])
  | c :: cs =>
    if c = '/' then
      let (k, r) := countSlashes cs
      (k + 1, r)
    else (0, c :: cs)

/-- Does the character list start with a decimal digit? -/
def startsWithDigit : List Char → Bool
  | [] => false
  | c :: _ => c.isDigit

/-- Modelled from the spec: the rational factor a duration-suffix string
applies to the unit length.  "absence = one unit length; trailing
digit(s) = integer multiplier; one or more `/` with no digit = successive
halving (`/` → ½, `//` → ¼); `/` followed by digit = explicit divisor"
(fractions such as `3/2` combine a multiplier and a divisor).  Returns
`none` for a string that is not a valid duration suffix. -/
def durFactor (cs : List Char) : Option Rat :=
  let (num, rest) :=
    if startsWithDigit cs then readDigits cs 0 else (1, cs)
  let (k, rest2) := countSlashes rest
  if startsWithDigit rest2 then
    let (den, rest3) := readDigits rest2 0
    if rest3 = [] ∧ 1 ≤ k ∧ den ≠ 0 then
      some ((num : Rat) / ((den : Rat) * 2 ^ (k - 1)))
    else none
  else if rest2 = [] then some ((num : Rat) / 2 ^ k)
  else none

/-- Modelled from the spec: parse a duration suffix against unit length
`U`, producing the note's exact rational duration. -/
def parseDurSuffix (s : String) (U : Duration) : Option Duration :=
  (durFactor s.toList).map (· * U)

/-- Modelled from the spec: Pitch — integer semitone distance from a
fixed reference octave; derived attributes are computed, never stored. -/
structure Pitch where
  value : Int
deriving DecidableEq, Repr

/-- Modelled from the spec: Note — a Pitch plus a Duration plus a tie
flag ("Note inherits from Pitch", so a Note carries a Pitch). -/
structure Note extends Pitch where
  duration : Duration
  tie : Bool
deriving DecidableEq, Repr

/-- Modelled from the spec: Event — tagged variant over note and rest for
the events inside a measure; bar-line information is carried on the
measure boundaries (see `Measure`). -/
inductive Event where
  | note (n : Note)
  | rest (d : Duration)
deriving DecidableEq, Repr

/-- Modelled from the spec: the kind of bar line closing a measure —
plain, repeat-close, or repeat-close-open (`::`). -/
inductive CloseKind where
  | plain
  | repClose
  | repCloseOpen
deriving DecidableEq, Repr

/-- Modelled from the spec: a Measure owns an ordered list of Events and
carries its bar-line annotations: whether a repeat-open starts it, the
ordered ending numbers tagged at its start (empty = no ending tag), and
the kind of bar line that closes it. -/
structure Measure where
  events : List Event
  openBefore : Bool := false
  endNums : List Nat := []
  close : CloseKind := CloseKind.plain
deriving DecidableEq, Repr

/-- Decimal value of a digit string. -/
def digitsToNat (ds : List Char) : Nat :=
  ds.foldl (fun a c => a * 10 + digitVal c) 0

/-- Modelled from the spec: the kind of bar line closing the measure at
index `i`, plain when the index is out of range. -/
def closeAt (ms : List Measure) (i : Nat) : CloseKind :=
  match ms[i]? with
  | some m => m.close
  | none => CloseKind.plain

/-- Modelled from the spec: "skip forward to the next measure that either
closes this ending or starts a different ending group" — starting at
index `j`, the first index at or after `j` whose measure starts an ending
group, or which is immediately preceded by a repeat-close or
repeat-close-open bar line.  Structural fuel bounds the scan. -/
def skipFrom (ms : List Measure) : Nat → Nat → Nat
  | 0, j => j
  | fuel + 1, j =>
    if h : j < ms.length then
      if ms[j].endNums ≠ [] then j
      else if closeAt ms (j - 1) ≠ CloseKind.plain then j
      else skipFrom ms fuel (j + 1)
    else j

/-- Modelled from the spec: ending numbers tagged on the consecutive run
of ending-group measures starting at index `j`. -/
def trailingEndNums (ms : List Measure) : Nat → Nat → List Nat
  | 0, _ => []
  | fuel + 1, j =>
    if h : j < ms.length then
      if ms[j].endNums ≠ [] then ms[j].endNums ++ trailingEndNums ms fuel (j + 1)
      else []
    else []

/-- Ending numbers tagged on measures with indices in `[lo, hi]`. -/
def collectEndNums (ms : List Measure) (lo hi : Nat) : List Nat :=
  (((ms.drop lo).take (hi + 1 - lo)).map Measure.endNums).foldr (· ++ ·) []

/-- Modelled from the spec: the ending numbers of the repeat region whose
return point is `ret` when its repeat-close follows measure `i` — the
numbers tagged between the return point and the close, together with
those on the consecutive ending-group run just after the close. -/
def regionEndNums (ms : List Measure) (ret i : Nat) : List Nat :=
  collectEndNums ms ret i ++ trailingEndNums ms ms.length (i + 1)

/-- Modelled from the spec, §4.2 algorithm: scan measures left to right
from index `i`, maintaining the current return point `ret` (default 0 =
start of tune) and a per-return-point pass counter `passes` (default 1).
On a repeat-open, update the return point; on an ending-group start,
include the measure only if the current pass count matches one of its
ending numbers, otherwise skip forward; on a repeat-close, increment the
pass counter and jump back to the return point while an unplayed ending
number remains (or, with no endings, after the first close only); a
repeat-close-open additionally makes the following measure the new
return point when continuing past.  `fuel` is structural fuel so the
scan is total; `none` means the fuel ran out. -/
def expandFrom (ms : List Measure) : Nat → Nat → Nat → (Nat → Nat) → Option (List Measure)
  | 0, i, _, _ => if i < ms.length then none else some []
  | fuel + 1, i, ret, passes =>
    if h : i < ms.length then
      let m := ms[i]
      let ret1 := if m.openBefore then i else ret
      if m.endNums ≠ [] ∧ ¬ passes ret1 ∈ m.endNums then
        expandFrom ms fuel (skipFrom ms ms.length (i + 1)) ret1 passes
      else if m.close = CloseKind.plain then
        (expandFrom ms fuel (i + 1) ret1 passes).map (m :: ·)
      else
        let c := passes ret1 + 1
        let E := regionEndNums ms ret1 i
        if (∃ n ∈ E, c ≤ n) ∨ (E = [] ∧ c = 2) then
          (expandFrom ms fuel ret1 ret1 fun j => if j = ret1 then c else passes j).map
            (m :: ·)
        else
          let ret2 := if m.close = CloseKind.repCloseOpen then i + 1 else ret1
          (expandFrom ms fuel (i + 1) ret2 passes).map (m :: ·)
    else some []

/-- Largest ending number appearing in the tune. -/
def maxEndNum (ms : List Measure) : Nat :=
  ms.foldr (fun m a => m.endNums.foldr Nat.max a) 0

/-- Fuel budget for the expansion scan: generous bound on the number of
measure visits of one full playthrough. -/
def expandFuel (ms : List Measure) : Nat :=
  (ms.length + 1) * (maxEndNum ms + 2)

/-- Modelled from the spec: the repeat/ending expansion engine — produce
the ordered list of measures of one full linear playthrough, starting at
the beginning with return point 0 and every pass counter at 1. -/
def expand (ms : List Measure) : Option (List Measure) :=
  expandFrom ms (expandFuel ms) 0 0 fun _ => 1

/-- Events of a measure list, flattened in order. -/
def flattenEvents (ms : List Measure) : List Event :=
  (ms.map Measure.events).foldr (· ++ ·) []

/-- Duration of a single event. -/
def eventDur : Event → Duration
  | Event.note n => n.duration
  | Event.rest d => d

/-- Total duration of all events of a measure list. -/
def totalDur (ms : List Measure) : Duration :=
  (flattenEvents ms).foldr (fun e a => eventDur e + a) 0

/-- Modelled from the spec, §4.4: the flattened melody view merges a
tied note with its successor of equal pitch into one logical sounding
event of summed duration; all other events pass through unchanged. -/
def mergeTies : List Event → List Event
  | [] => []
  | [e] => [e]
  | Event.note n :: Event.note m :: rest =>
    if n.tie = true ∧ n.toPitch = m.toPitch then
      mergeTies (Event.note ⟨n.toPitch, n.duration + m.duration, m.tie⟩ :: rest)
    else Event.note n :: mergeTies (Event.note m :: rest)
  | e :: rest => e :: mergeTies rest
termination_by l => l.length

/-- Modelled from the spec: the flattened melody view of a measure list —
the notes/rests across the measures in order, ties merged; the measures
themselves are not modified (the view is computed from them). -/
def iterNotes (ms : List Measure) : List Event :=
  mergeTies (flattenEvents ms)

/-- Modelled from the spec: body token stream around broken-rhythm marks:
note/rest tokens interleaved with `>` and `<` marks. -/
inductive BTok where
  | ev (e : Event)
  | gtMark
  | ltMark
deriving DecidableEq, Repr

/-- Scale an event's duration by an exact rational factor. -/
def scaleEvent (r : Rat) : Event → Event
  | Event.note n => Event.note ⟨n.toPitch, r * n.duration, n.tie⟩
  | Event.rest d => Event.rest (r * d)

/-- State of the broken-rhythm pass: emitted events (reversed), the
pending event still subject to following marks, and the factor carried
onto the next event. -/
structure BrokenState where
  acc : List Event
  pending : Option Event
  carry : Rat

/-- Modelled from the spec: one step of the broken-rhythm pass.  A `>`
multiplies the preceding token by 3/2 and carries 1/2 onto the next; a
`<` multiplies the preceding token by 1/2 and carries 3/2; chained marks
compound these factors. -/
def brokenStep (s : BrokenState) (t : BTok) : BrokenState :=
  match t with
  | BTok.ev e =>
    ⟨(match s.pending with | some p => p :: s.acc | none => s.acc),
      some (scaleEvent s.carry e), 1⟩
  | BTok.gtMark => ⟨s.acc, s.pending.map (scaleEvent (3 / 2)), s.carry * (1 / 2)⟩
  | BTok.ltMark => ⟨s.acc, s.pending.map (scaleEvent (1 / 2)), s.carry * (3 / 2)⟩

/-- Modelled from the spec: apply broken-rhythm rescaling to a token
stream, producing the events with their final durations. -/
def applyBroken (ts : List BTok) : List Event :=
  let s := ts.foldl brokenStep ⟨[], none, 1⟩
  (match s.pending with | some p => p :: s.acc | none => s.acc).reverse

/-- Modelled from the spec: a triplet `(3` multiplies each of the three
grouped durations by 2/3. -/
def applyTriplet (es : List Event) : List Event :=
  es.map (scaleEvent (2 / 3))

/-- Summed Note/Rest duration of one measure. -/
def measureDur (m : Measure) : Duration :=
  m.events.foldr (fun e a => eventDur e + a) 0

/-- Modelled from the spec: expected measure length from the meter's
numerator and denominator. -/
def meterLength (num den : Nat) : Duration :=
  (num : Rat) / (den : Rat)

/-- Modelled from the spec: the duration validator's scan — a warning
(measure index, expected, actual) for every measure whose summed
duration differs from the expected measure length. -/
def validateFrom (expected : Duration) : Nat → List Measure →
    List (Nat × Duration × Duration)
  | _, [] => []
  | i, m :: rest =>
    if measureDur m ≠ expected then
      (i, expected, measureDur m) :: validateFrom expected (i + 1) rest
    else validateFrom expected (i + 1) rest

/-- Modelled from the spec: the duration validator over a whole tune. -/
def validateDurations (expected : Duration) (ms : List Measure) :
    List (Nat × Duration × Duration) :=
  validateFrom expected 0 ms

/-- Modelled from the spec: validation outcome — warnings are accumulated
and never abort parsing by default; strict mode escalates a non-empty
warning list to a failure. -/
def validateResult (strict : Bool) (expected : Duration) (ms : List Measure) :
    Except (List (Nat × Duration × Duration))
      (List Measure × List (Nat × Duration × Duration)) :=
  let w := validateDurations expected ms
  if strict = true ∧ w ≠ [] then Except.error w else Except.ok (ms, w)

/-- The three bracket families whose balance is fatal when corrupted:
chord `[...]`, slur `(...)`, grace braces. -/
inductive Br where
  | sq
  | par
  | crl
deriving DecidableEq, Repr

/-- Opening-bracket classification of a character. -/
def openBr (c : Char) : Option Br :=
  if c = '[' then some Br.sq
  else if c = '(' then some Br.par
  else if c = Char.ofNat 123 then some Br.crl
  else none

/-- Closing-bracket classification of a character. -/
def closeBr (c : Char) : Option Br :=
  if c = ']' then some Br.sq
  else if c = ')' then some Br.par
  else if c = Char.ofNat 125 then some Br.crl
  else none

/-- Characters that belong to known body token shapes (note letters,
rests, bar lines, durations, accidentals, octave marks, broken-rhythm
marks, ties, decorations, whitespace). -/
def knownChars : List Char :=
  "ABCDEFGabcdefgzZx|:/<>-.~^_= ,".toList ++ [Char.ofNat 39]

/-- Does the character belong to a known body token shape (duration
digits included)? -/
def isKnownChar (c : Char) : Bool := knownChars.contains c || c.isDigit

/-- Modelled from the spec: the body scan — recognized characters are
consumed, bracket characters must nest properly (a mismatched or
unclosed bracket is the fatal ParseError, modelled as `none`), and any
other character is recorded as a skipped span and scanning continues
around it.  Returns the recorded skipped characters in input order. -/
def scanBody : List Char → List Br → List Char → Option (List Char)
  | [], [], skipped => some skipped.reverse
  | [], _ :: _, _ => none
  | c :: cs, st, skipped =>
    match openBr c with
    | some b => scanBody cs (b :: st) skipped
    | none =>
      match closeBr c with
      | some b =>
        match st with
        | b' :: st' => if b = b' then scanBody cs st' skipped else none
        | [] => none
      | none =>
        if isKnownChar c then scanBody cs st skipped
        else scanBody cs st (c :: skipped)

/-- Modelled from the spec: tokenize a tune body, yielding the recorded
skipped spans, or the fatal ParseError (`none`) on bracket imbalance. -/
def tokenizeBody (cs : List Char) : Option (List Char) :=
  scanBody cs [] []

/-- Bracket classification of a character: kind and whether it opens. -/
def brTag (c : Char) : Option (Br × Bool) :=
  match openBr c with
  | some b => some (b, true)
  | none =>
    match closeBr c with
    | some b => some (b, false)
    | none => none

/-- The bracket projection of a character list. -/
def brackets (cs : List Char) : List (Br × Bool) :=
  cs.filterMap brTag

/-- The standard bracket-matching checker on a bracket sequence, with an
explicit stack of currently open brackets. -/
def checkBalanced : List (Br × Bool) → List Br → Bool
  | [], st => st.isEmpty
  | (b, true) :: rest, st => checkBalanced rest (b :: st)
  | (b, false) :: rest, st =>
    match st with
    | b' :: st' => b = b' && checkBalanced rest st'
    | [] => false

/-- Is the bracket structure of the body text balanced? -/
def balanced (cs : List Char) : Bool :=
  checkBalanced (brackets cs) []

/-- A character that is not a bracket and not part of a known token
shape: exactly those the scan records as skipped. -/
def isUnrecognized (c : Char) : Bool :=
  (brTag c).isNone && !isKnownChar c

/-- Modelled from the spec: the Duration denominator invariant —
"denominator is a power of two times at most one factor of 3". -/
def dyadic3 (q : Rat) : Prop :=
  ∃ a b : Nat, b ≤ 1 ∧ q.den = 2 ^ a * 3 ^ b

/-- Modelled from the spec: derived octave number of a pitch — the value
is an absolute semitone count, octave `n` spanning values `12n` to
`12n + 11` (so middle C, value 48, is octave 4). -/
def Pitch.octave : Pitch → Int := fun p => Int.fdiv p.value 12

/-- Modelled from the spec: pitch-class value 0-11, "equality/arithmetic
operate on the integer class modulo 12". -/
def Pitch.classValue (p : Pitch) : Int := Int.emod p.value 12

/-- Natural-letter name of a natural pitch class, if the class value is
one of the naturals (C D E F G A B at 0 2 4 5 7 9 11). -/
def naturalName (v : Int) : Option String :=
  if v = 0 then some "C"
  else if v = 2 then some "D"
  else if v = 4 then some "E"
  else if v = 5 then some "F"
  else if v = 7 then some "G"
  else if v = 9 then some "A"
  else if v = 11 then some "B"
  else none

/-- Name of a pitch class in the sharp spelling: a natural letter, or
the letter below carrying the given sharp marker. -/
def classNameWith (sharpMark : String) (v : Int) : String :=
  match naturalName v with
  | some s => s
  | none =>
    match naturalName (v - 1) with
    | some s => s ++ sharpMark
    | none => "?"

/-- Derived pitch-class name of a pitch (ASCII sharp). -/
def Pitch.className : Pitch → String := fun p =>
  classNameWith "#" p.classValue

/-- Derived full name of a pitch: class name plus octave number. -/
def Pitch.name : Pitch → String := fun p =>
  p.className ++ toString p.octave

/-- Derived unicode name of a pitch (unicode sharp sign). -/
def Pitch.unicodeName : Pitch → String := fun p =>
  classNameWith "♯" p.classValue ++ toString p.octave

/-- Modelled from the spec: two pitches subtract to a signed semitone
interval. -/
def Pitch.sub (p q : Pitch) : Int := p.value - q.value

/-- Modelled from the spec: the equal-temperament frequency of a pitch
is `440 · 2^((value − 57)/12)` Hz (A4 = value 57 = 440 Hz); it is fully
determined by the exact cent offset from A440, which stands in for the
floating-point frequency in this model. -/
def Pitch.etfCents (p : Pitch) : Int := 100 * (p.value - 57)

/-- Note inherits the octave attribute from Pitch. -/
def Note.octave (n : Note) : Int := Pitch.octave n.toPitch

/-- Note inherits the class value from Pitch. -/
def Note.classValue (n : Note) : Int := Pitch.classValue n.toPitch

/-- Note inherits the class name from Pitch. -/
def Note.className (n : Note) : String := Pitch.className n.toPitch

/-- Note inherits the name from Pitch. -/
def Note.name (n : Note) : String := Pitch.name n.toPitch

/-- Note inherits the unicode name from Pitch. -/
def Note.unicodeName (n : Note) : String := Pitch.unicodeName n.toPitch

/-- Note inherits pitch subtraction from Pitch. -/
def Note.sub (n : Note) (q : Pitch) : Int := Pitch.sub n.toPitch q

/-- Note inherits the equal-temperament frequency (cent offset) from
Pitch. -/
def Note.etfCents (n : Note) : Int := Pitch.etfCents n.toPitch

/-- Base semitone value of a note letter; uppercase letters sit in the
middle-C octave (C = 48), lowercase one octave higher. -/
def letterBase (c : Char) : Option Int :=
  if c = 'C' then some 48 else if c = 'D' then some 50
  else if c = 'E' then some 52 else if c = 'F' then some 53
  else if c = 'G' then some 55 else if c = 'A' then some 57
  else if c = 'B' then some 59
  else if c = 'c' then some 60 else if c = 'd' then some 62
  else if c = 'e' then some 64 else if c = 'f' then some 65
  else if c = 'g' then some 67 else if c = 'a' then some 69
  else if c = 'b' then some 71
  else none

/-- Count octave-shift marks following the note letter: each apostrophe
raises by an octave, each comma lowers by one. -/
def countOctaveMarks : List Char → Int × List Char
  | [] => (0, [])
  | c :: cs =>
    if c = Char.ofNat 39 then
      let (v, r) := countOctaveMarks cs
      (v + 12, r)
    else if c = ',' then
      let (v, r) := countOctaveMarks cs
      (v - 12, r)
    else (0, c :: cs)

/-- Modelled from the spec: `Note.from_abc` — parse an ABC note string
`[accidental] letter [octave marks] [duration]` into a Note (duration in
units of the unit note length). -/
def fromAbc (s : String) : Option Note :=
  match s.toList with
  | [] => none
  | c :: cs =>
    let (acc, rest) :=
      if c = '^' then ((1 : Int), cs)
      else if c = '_' then (-1, cs)
      else if c = '=' then (0, cs)
      else (0, c :: cs)
    match rest with
    | [] => none
    | l :: rest2 =>
      match letterBase l with
      | none => none
      | some base =>
        let (oct, rest3) := countOctaveMarks rest2
        match durFactor rest3 with
        | none => none
        | some f => some ⟨⟨base + acc + oct⟩, f, false⟩

/-- Example measure `[A]` with a repeat-open bar line before it. -/
def measA : Measure := { events := [Event.note ⟨⟨60⟩, 1, false⟩], openBefore := true }

/-- Example measure `[B]` tagged ending `{1}`, with a repeat-close after it. -/
def measB : Measure :=
  { events := [Event.note ⟨⟨62⟩, 1, false⟩], endNums := [1], close := CloseKind.repClose }

/-- Example measure `[C]` tagged ending `{2}`. -/
def measC : Measure := { events := [Event.note ⟨⟨64⟩, 1, false⟩], endNums := [2] }

/-- Example single measure `[A]` followed by a repeat-close bar line. -/
def measSolo (evs : List Event) : Measure :=
  { events := evs, close := CloseKind.repClose }

-- ===== Theorems =====

theorem readDigits_all_digits (ds : List Char) :
    ∀ acc : Nat, (∀ c ∈ ds, c.isDigit = true) →
      readDigits ds acc = (ds.foldl (fun a c => a * 10 + digitVal c) acc, []) := by
  induction ds with
  | nil => intro acc _; rfl
  | cons c cs ih =>
    intro acc h
    have hc : c.isDigit = true := h c (List.mem_cons_self c cs)
    have hcs : ∀ x ∈ cs, x.isDigit = true := fun x hx => h x (List.mem_cons_of_mem c hx)
    simp [readDigits, hc, ih _ hcs]

/-- C3: for every valid duration shorthand on a note or rest token with
unit length `U`, the parsed duration is the exact rational: no suffix
gives `U`, a trailing integer `n` gives `n*U`, `/` gives `U/2`, `//`
gives `U/4`, a fraction suffix such as `3/2` gives `3U/2`, and `/`
followed by a digit divides by that digit. -/
theorem c3_duration_shorthand (U : Duration) (ds : List Char)
    (hds : ∀ c ∈ ds, c.isDigit = true) (hne : ds ≠ []) :
    parseDurSuffix "" U = some U ∧
    parseDurSuffix (String.mk ds) U = some ((digitsToNat ds : Rat) * U) ∧
    parseDurSuffix "/" U = some (U / 2) ∧
    parseDurSuffix "//" U = some (U / 4) ∧
    parseDurSuffix "3/2" U = some (3 * U / 2) ∧
    ∀ d : Char, d.isDigit = true → digitVal d ≠ 0 →
      parseDurSuffix (String.mk ['/', d]) U = some (U / (digitVal d : Rat)) := by
  refine ⟨?g0, ?g1, ?g2, ?g3, ?g4, ?g5⟩
  · simp +decide [parseDurSuffix, durFactor, startsWithDigit, countSlashes, String.toList]
  · obtain ⟨c, cs, rfl⟩ := List.exists_cons_of_ne_nil hne
    have hc : c.isDigit = true := hds c (List.mem_cons_self c cs)
    simp only [parseDurSuffix, durFactor, String.toList, String.mk]
    rw [readDigits_all_digits _ _ hds] at *
    simp [startsWithDigit, hc, countSlashes, digitsToNat]
  · simp +decide [parseDurSuffix, durFactor, startsWithDigit, countSlashes, String.toList]
    norm_num [div_eq_mul_inv, mul_comm]
  · simp +decide [parseDurSuffix, durFactor, startsWithDigit, countSlashes, String.toList]
    norm_num [div_eq_mul_inv, mul_comm]
  · simp +decide [parseDurSuffix, durFactor, startsWithDigit, countSlashes, readDigits,
      digitVal, String.toList]
    norm_num [div_eq_mul_inv]
    ring
  · intro d hd hd0
    have hds : ¬ d = '/' := by
      intro h; rw [h] at hd; exact absurd hd (by decide)
    simp only [parseDurSuffix, durFactor, String.toList, String.mk]
    simp [startsWithDigit, countSlashes, hds, hd, readDigits, digitVal, hd0]
    refine ⟨((d.toNat - 48 : Nat) : Rat)⁻¹, ⟨by simpa [digitVal] using hd0, rfl⟩, ?_⟩
    rw [inv_mul_eq_div]

/-- Witness for C3 at `U = 1`, digit string `24`. -/
theorem c3_duration_shorthand_witness :
    parseDurSuffix (String.mk ['2', '4']) 1 = some ((digitsToNat ['2', '4'] : Rat) * 1) :=
  (c3_duration_shorthand 1 ['2', '4'] (by decide) (by decide)).2.1

/-- C1: when the scan reaches a measure tagged as the start of an ending
group, it is included in the output (emitted as the next measure of the
playthrough) exactly when the current pass count is one of its ending
numbers, and otherwise the scan skips forward without emitting it; in
particular `[A]` (repeat-open), `[B]` ending `{1}` then repeat-close,
`[C]` ending `{2}` expands to `[A][B][A][C]`. -/
theorem c1_ending_pass_selection (ms : List Measure) (fuel i ret : Nat)
    (passes : Nat → Nat) (h : i < ms.length)
    (hend : ms[i].endNums ≠ []) :
    (¬ passes (if ms[i].openBefore then i else ret) ∈ ms[i].endNums →
      expandFrom ms (fuel + 1) i ret passes =
        expandFrom ms fuel (skipFrom ms ms.length (i + 1))
          (if ms[i].openBefore then i else ret) passes) ∧
    (passes (if ms[i].openBefore then i else ret) ∈ ms[i].endNums →
      ∃ j r p, expandFrom ms (fuel + 1) i ret passes =
        (expandFrom ms fuel j r p).map (ms[i] :: ·)) ∧
    expand [measA, measB, measC] = some [measA, measB, measA, measC] := by
  refine ⟨?_, ?_, by decide⟩
  · intro hmem
    simp only [expandFrom]
    rw [dif_pos h, if_pos ⟨hend, hmem⟩]
  · intro hmem
    simp only [expandFrom]
    rw [dif_pos h, if_neg (fun hcon => hcon.2 hmem)]
    by_cases hpl : ms[i].close = CloseKind.plain
    · rw [if_pos hpl]
      exact ⟨_, _, _, rfl⟩
    · rw [if_neg hpl]
      by_cases hjump :
          (∃ n ∈ regionEndNums ms (if ms[i].openBefore then i else ret) i,
            passes (if ms[i].openBefore then i else ret) + 1 ≤ n) ∨
          (regionEndNums ms (if ms[i].openBefore then i else ret) i = [] ∧
            passes (if ms[i].openBefore then i else ret) + 1 = 2)
      · rw [if_pos hjump]
        exact ⟨_, _, _, rfl⟩
      · rw [if_neg hjump]
        exact ⟨_, _, _, rfl⟩

/-- Witness for C1: the skip case at the second pass of the example tune
(measure `[B]` ending `{1}` reached with pass count 2). -/
theorem c1_ending_pass_selection_witness :
    expandFrom [measA, measB, measC] 14 1 0 (fun j => if j = 0 then 2 else 1) =
      expandFrom [measA, measB, measC] 13
        (skipFrom [measA, measB, measC] 3 2) 0 (fun j => if j = 0 then 2 else 1) :=
  ((c1_ending_pass_selection [measA, measB, measC] 13 1 0
    (fun j => if j = 0 then 2 else 1) (by decide) (by decide)).1 (by decide))

/-- C2: a repeat-close reached with the default return point (index 0,
the start of the tune, used when no explicit repeat-open precedes) jumps
back to measure index 0; in particular a single measure `[A]` followed
by a repeat-close bar line expands to `[A][A]`. -/
theorem c2_default_return_point (ms : List Measure) (fuel i : Nat)
    (passes : Nat → Nat) (h : i < ms.length)
    (hopen : ms[i].openBefore = false)
    (hend : ms[i].endNums = [])
    (hclose : ms[i].close = CloseKind.repClose)
    (hregion : regionEndNums ms 0 i = [])
    (hpass : passes 0 = 1) :
    (expandFrom ms (fuel + 1) i 0 passes =
      (expandFrom ms fuel 0 0 fun j => if j = 0 then 2 else passes j).map
        (ms[i] :: ·)) ∧
    ∀ evs : List Event, expand [measSolo evs] = some [measSolo evs, measSolo evs] := by
  constructor
  · simp only [expandFrom]
    rw [dif_pos h]
    simp only [hopen, Bool.false_eq_true, if_false]
    rw [if_neg (fun hcon => hcon.1 hend)]
    rw [if_neg (by rw [hclose]; intro hcon; exact absurd hcon (by decide))]
    rw [if_pos (Or.inr ⟨hregion, by rw [hpass]⟩)]
    rw [hpass]
  · intro evs
    rfl

/-- Witness for C2: the single-measure example at index 0. -/
theorem c2_default_return_point_witness :
    expandFrom [measSolo []] 4 0 0 (fun _ => 1) =
      (expandFrom [measSolo []] 3 0 0 fun j => if j = 0 then 2 else 1).map
        ((measSolo []) :: ·) :=
  (c2_default_return_point [measSolo []] 3 0 (fun _ => 1) Nat.one_pos
    rfl rfl rfl rfl rfl).1

theorem expandFrom_no_repeats (ms : List Measure)
    (hms : ∀ m ∈ ms, m.openBefore = false ∧ m.endNums = [] ∧ m.close = CloseKind.plain) :
    ∀ fuel i ret passes, ms.length ≤ i + fuel →
      expandFrom ms fuel i ret passes = some (ms.drop i) := by
  intro fl
  induction fl with
  | zero =>
    intro i ret passes hle
    have hni : ¬ i < ms.length := by omega
    have hd : ms.drop i = [] := List.drop_eq_nil_of_le (by simpa using hle)
    simp [expandFrom, hni, hd]
  | succ f ih =>
    intro i ret passes hle
    by_cases h : i < ms.length
    · obtain ⟨ho, he, hc⟩ := hms ms[i] (List.get_mem ms i h)
      simp only [expandFrom]
      rw [dif_pos h]
      rw [if_neg (fun hcon => hcon.1 he)]
      rw [if_pos hc]
      rw [ih (i + 1) (if ms[i].openBefore = true then i else ret) passes (by omega)]
      rw [List.drop_eq_getElem_cons h]
      rfl
    · have hd : ms.drop i = [] := List.drop_eq_nil_of_le (Nat.le_of_not_lt h)
      simp [expandFrom, h, hd]

/-- C4: for a tune whose body contains no repeat bar lines (no
repeat-open, no ending tags, only plain closing bar lines), the
expansion engine is the identity, and re-flattening the expanded
measures yields the events in the same order and with the same total
duration as the parsed measures. -/
theorem c4_no_repeats_identity (ms : List Measure)
    (hms : ∀ m ∈ ms, m.openBefore = false ∧ m.endNums = [] ∧ m.close = CloseKind.plain) :
    expand ms = some ms ∧
    (expand ms).map flattenEvents = some (flattenEvents ms) ∧
    (expand ms).map totalDur = some (totalDur ms) := by
  have h0 : expand ms = some ms := by
    have hle : ms.length ≤ 0 + expandFuel ms := by
      have h1 : ms.length + 1 ≤ (ms.length + 1) * (maxEndNum ms + 2) :=
        Nat.le_mul_of_pos_right _ (by omega)
      simp only [expandFuel]
      omega
    simpa [expand] using expandFrom_no_repeats ms hms (expandFuel ms) 0 0 (fun _ => 1) hle
  exact ⟨h0, by rw [h0]; rfl, by rw [h0]; rfl⟩

/-- C5: a note with its tie flag set followed (here across a bar line)
by a note of equal pitch yields, in the flattened melody view, one event
of summed duration; the per-measure event lists are untouched, still
containing both original notes. -/
theorem c5_tie_merge_view (p : Pitch) (d₁ d₂ : Duration) (t : Bool) (evs : List Event) :
    mergeTies (Event.note ⟨p, d₁, true⟩ :: Event.note ⟨p, d₂, t⟩ :: evs) =
      mergeTies (Event.note ⟨p, d₁ + d₂, t⟩ :: evs) ∧
    iterNotes [⟨[Event.note ⟨p, d₁, true⟩], false, [], CloseKind.plain⟩,
               ⟨[Event.note ⟨p, d₂, false⟩], false, [], CloseKind.plain⟩] =
      [Event.note ⟨p, d₁ + d₂, false⟩] ∧
    flattenEvents [⟨[Event.note ⟨p, d₁, true⟩], false, [], CloseKind.plain⟩,
                   ⟨[Event.note ⟨p, d₂, false⟩], false, [], CloseKind.plain⟩] =
      [Event.note ⟨p, d₁, true⟩, Event.note ⟨p, d₂, false⟩] := by
  refine ⟨?_, ?_, rfl⟩
  · rw [mergeTies]
    simp
  · simp [iterNotes, flattenEvents, mergeTies]

theorem scaleEvent_scaleEvent (r s : Rat) (e : Event) :
    scaleEvent r (scaleEvent s e) = scaleEvent (r * s) e := by
  cases e <;> simp [scaleEvent, mul_assoc]

theorem scaleEvent_one (e : Event) : scaleEvent 1 e = e := by
  cases e <;> simp [scaleEvent]

theorem foldl_gtMarks (g : Nat) (acc : List Event) (p : Event) (c : Rat) :
    List.foldl brokenStep ⟨acc, some p, c⟩ (List.replicate g BTok.gtMark) =
      ⟨acc, some (scaleEvent ((3 / 2 : Rat) ^ g) p), c * (1 / 2 : Rat) ^ g⟩ := by
  induction g generalizing p c with
  | zero => simp [scaleEvent_one]
  | succ k ih =>
    rw [List.replicate_succ, List.foldl_cons]
    show List.foldl brokenStep ⟨acc, some (scaleEvent (3 / 2) p), c * (1 / 2)⟩
        (List.replicate k BTok.gtMark) = _
    rw [ih]
    simp only [scaleEvent_scaleEvent, BrokenState.mk.injEq]
    refine ⟨trivial, ?_, by ring⟩
    rw [pow_succ]

/-- C8: a `>` between two adjacent note/rest tokens multiplies the token
before it by exactly 3/2 and its partner by exactly 1/2 (`<` the other
way round), the factors acting exactly on the durations; chained marks
compound the exact rational factors, `g` marks giving `(3/2)^g` and
`(1/2)^g`. -/
theorem c8_broken_rhythm (a b : Event) :
    (∀ r : Rat, eventDur (scaleEvent r a) = r * eventDur a) ∧
    applyBroken [BTok.ev a, BTok.gtMark, BTok.ev b] =
      [scaleEvent (3 / 2) a, scaleEvent (1 / 2) b] ∧
    applyBroken [BTok.ev a, BTok.ltMark, BTok.ev b] =
      [scaleEvent (1 / 2) a, scaleEvent (3 / 2) b] ∧
    ∀ g : Nat,
      applyBroken (BTok.ev a :: (List.replicate g BTok.gtMark ++ [BTok.ev b])) =
        [scaleEvent ((3 / 2 : Rat) ^ g) a, scaleEvent ((1 / 2 : Rat) ^ g) b] := by
  refine ⟨?g0, ?g1, ?g2, ?g3⟩
  · intro r; cases a <;> rfl
  · simp [applyBroken, brokenStep, scaleEvent_one, scaleEvent_scaleEvent]
  · simp [applyBroken, brokenStep, scaleEvent_one, scaleEvent_scaleEvent]
  · intro g
    simp only [applyBroken, List.foldl_cons, List.foldl_append]
    rw [show brokenStep ⟨[], none, 1⟩ (BTok.ev a) = ⟨[], some (scaleEvent 1 a), 1⟩ from rfl]
    rw [foldl_gtMarks]
    simp [brokenStep, scaleEvent_one, scaleEvent_scaleEvent]

/-- Witness for C4: a two-measure tune with no repeat bar lines. -/
theorem c4_no_repeats_identity_witness :
    expand [⟨[Event.rest 1], false, [], CloseKind.plain⟩,
            ⟨[Event.rest 2], false, [], CloseKind.plain⟩] =
      some [⟨[Event.rest 1], false, [], CloseKind.plain⟩,
            ⟨[Event.rest 2], false, [], CloseKind.plain⟩] :=
  (c4_no_repeats_identity _ (by decide)).1

theorem validateFrom_fst_ge (expected : Duration) :
    ∀ (ms : List Measure) (s : Nat) (w : Nat × Duration × Duration),
      w ∈ validateFrom expected s ms → s ≤ w.1 := by
  intro mss
  induction mss with
  | nil => intro s w hw; simp [validateFrom] at hw
  | cons m tl ih =>
    intro s w hw
    by_cases hm : measureDur m ≠ expected
    · rw [validateFrom, if_pos hm] at hw
      rcases List.mem_cons.mp hw with hh | hh
      · subst hh; exact Nat.le_refl s
      · exact Nat.le_trans (Nat.le_succ s) (ih (s + 1) w hh)
    · rw [validateFrom, if_neg hm] at hw
      exact Nat.le_trans (Nat.le_succ s) (ih (s + 1) w hw)

theorem validateFrom_mem (expected : Duration) :
    ∀ (ms : List Measure) (s j : Nat) (h : j < ms.length),
      ((s + j, expected, measureDur ms[j]) ∈ validateFrom expected s ms ↔
        measureDur ms[j] ≠ expected) := by
  intro mss
  induction mss with
  | nil => intro s j h; simp at h
  | cons m tl ih =>
    intro s j h
    cases j with
    | zero =>
      simp only [Nat.add_zero, List.getElem_cons_zero]
      by_cases hm : measureDur m ≠ expected
      · rw [validateFrom, if_pos hm]
        exact ⟨fun _ => hm, fun _ => List.mem_cons_self _ _⟩
      · rw [validateFrom, if_neg hm]
        constructor
        · intro hin
          have := validateFrom_fst_ge expected tl (s + 1) _ hin
          omega
        · intro hne; exact absurd hne hm
    | succ k =>
      have hkl : k < tl.length := by simpa using h
      simp only [List.getElem_cons_succ]
      have hidx : s + (k + 1) = (s + 1) + k := by omega
      by_cases hm : measureDur m ≠ expected
      · rw [validateFrom, if_pos hm, List.mem_cons]
        have hne : ¬ ((s + (k + 1), expected, measureDur tl[k]) =
            (s, expected, measureDur m)) := by
          intro hh
          have h1 : s + (k + 1) = s := congrArg Prod.fst hh
          omega
        rw [or_iff_right hne, hidx]
        exact ih (s + 1) k hkl
      · rw [validateFrom, if_neg hm, hidx]
        exact ih (s + 1) k hkl

/-- C7: the duration validator warns about a measure exactly when its
summed Note/Rest duration differs from the meter-implied measure length;
the default (non-strict) result always carries the measure list together
with the accumulated warnings, and strict mode turns a non-empty warning
list into a failure. -/
theorem c7_duration_validator (expected : Duration) (ms : List Measure)
    (j : Nat) (h : j < ms.length) :
    ((j, expected, measureDur ms[j]) ∈ validateDurations expected ms ↔
      measureDur ms[j] ≠ expected) ∧
    validateResult false expected ms =
      Except.ok (ms, validateDurations expected ms) ∧
    (validateDurations expected ms = [] →
      validateResult true expected ms =
        Except.ok (ms, validateDurations expected ms)) ∧
    (validateDurations expected ms ≠ [] →
      validateResult true expected ms = Except.error (validateDurations expected ms)) := by
  have hmem := validateFrom_mem expected ms 0 j h
  exact ⟨by simpa using hmem, by simp [validateResult],
    fun hw => by simp [validateResult, hw], fun hw => by simp [validateResult, hw]⟩

/-- Witness for C7: with expected measure length `meterLength 4 4 = 1`,
the second measure (a rest of two units) is flagged. -/
theorem c7_duration_validator_witness :
    ((1 : Nat), meterLength 4 4,
        measureDur ⟨[Event.rest 2], false, [], CloseKind.plain⟩) ∈
      validateDurations (meterLength 4 4)
        [⟨[Event.rest 1], false, [], CloseKind.plain⟩,
         ⟨[Event.rest 2], false, [], CloseKind.plain⟩] :=
  ((c7_duration_validator (meterLength 4 4)
      [⟨[Event.rest 1], false, [], CloseKind.plain⟩,
       ⟨[Event.rest 2], false, [], CloseKind.plain⟩] 1 (by decide)).1).mpr
    (by norm_num [measureDur, eventDur, meterLength])

theorem scanBody_spec :
    ∀ (cs : List Char) (st : List Br) (skipped : List Char),
      (scanBody cs st skipped = none ↔ checkBalanced (brackets cs) st = false) ∧
      (checkBalanced (brackets cs) st = true →
        scanBody cs st skipped =
          some (skipped.reverse ++ cs.filter isUnrecognized)) := by
  intro chars
  induction chars with
  | nil =>
    intro st skipped
    cases st with
    | nil =>
      refine ⟨by simp [scanBody, brackets, checkBalanced], fun _ => by simp [scanBody, brackets]⟩
    | cons b st' =>
      refine ⟨by simp [scanBody, brackets, checkBalanced], fun hb => ?_⟩
      simp [brackets, checkBalanced] at hb
  | cons c cs ih =>
    intro st skipped
    cases ho : openBr c with
    | some b =>
      have htag : brTag c = some (b, true) := by simp [brTag, ho]
      have hbr : brackets (c :: cs) = (b, true) :: brackets cs := by
        simp [brackets, htag]
      have hstep : scanBody (c :: cs) st skipped = scanBody cs (b :: st) skipped := by
        simp [scanBody, ho]
      have hfil : (c :: cs).filter isUnrecognized = cs.filter isUnrecognized := by
        simp [List.filter_cons, isUnrecognized, htag]
      have hchk : checkBalanced ((b, true) :: brackets cs) st =
          checkBalanced (brackets cs) (b :: st) := by
        simp [checkBalanced]
      rw [hstep, hbr, hfil, hchk]
      exact ih (b :: st) skipped
    | none =>
      cases hc : closeBr c with
      | some b =>
        have htag : brTag c = some (b, false) := by simp [brTag, ho, hc]
        have hbr : brackets (c :: cs) = (b, false) :: brackets cs := by
          simp [brackets, htag]
        cases st with
        | nil =>
          have hstep : scanBody (c :: cs) [] skipped = none := by
            simp [scanBody, ho, hc]
          rw [hstep, hbr]
          refine ⟨by simp [checkBalanced], fun hb => ?_⟩
          simp [checkBalanced] at hb
        | cons b' st' =>
          by_cases hbb : b = b'
          · subst hbb
            have hstep : scanBody (c :: cs) (b :: st') skipped =
                scanBody cs st' skipped := by
              simp [scanBody, ho, hc]
            have hchk : checkBalanced ((b, false) :: brackets cs) (b :: st') =
                checkBalanced (brackets cs) st' := by
              simp [checkBalanced]
            have hfil : (c :: cs).filter isUnrecognized = cs.filter isUnrecognized := by
              simp [List.filter_cons, isUnrecognized, htag]
            rw [hstep, hbr, hchk, hfil]
            exact ih st' skipped
          · have hstep : scanBody (c :: cs) (b' :: st') skipped = none := by
              simp [scanBody, ho, hc, hbb]
            have hchk : checkBalanced ((b, false) :: brackets cs) (b' :: st') = false := by
              simp [checkBalanced, hbb]
            rw [hstep, hbr, hchk]
            refine ⟨by simp, fun hb => ?_⟩
            simp at hb
      | none =>
        have htag : brTag c = none := by simp [brTag, ho, hc]
        have hbr : brackets (c :: cs) = brackets cs := by simp [brackets, htag]
        by_cases hk : isKnownChar c = true
        · have hstep : scanBody (c :: cs) st skipped = scanBody cs st skipped := by
            simp [scanBody, ho, hc, hk]
          have hfil : (c :: cs).filter isUnrecognized = cs.filter isUnrecognized := by
            simp [List.filter_cons, isUnrecognized, htag, hk]
          rw [hstep, hbr, hfil]
          exact ih st skipped
        · have hstep : scanBody (c :: cs) st skipped = scanBody cs st (c :: skipped) := by
            simp [scanBody, ho, hc, hk]
          have hfil : (c :: cs).filter isUnrecognized =
              c :: cs.filter isUnrecognized := by
            simp [List.filter_cons, isUnrecognized, htag, hk]
          rw [hstep, hbr, hfil]
          refine ⟨(ih st (c :: skipped)).1, fun hb => ?_⟩
          rw [(ih st (c :: skipped)).2 hb]
          simp

/-- C6: a body character that matches no known token shape is recorded
as a skipped span while scanning continues around it (on balanced input
the scan succeeds and returns exactly the unrecognized characters in
order), and the scan aborts with the fatal ParseError (`none`) exactly
when the bracket structure of chord/slur/grace groups is corrupted. -/
theorem c6_unrecognized_nonfatal (cs : List Char) :
    (tokenizeBody cs = none ↔ balanced cs = false) ∧
    (balanced cs = true → tokenizeBody cs = some (cs.filter isUnrecognized)) := by
  have h := scanBody_spec cs [] []
  refine ⟨by simpa [tokenizeBody, balanced] using h.1, fun hb => ?_⟩
  have := h.2 (by simpa [balanced] using hb)
  simpa [tokenizeBody] using this

/-- Witness for C6: scanning `a!b` records the unrecognized `!` and
succeeds. -/
theorem c6_unrecognized_nonfatal_witness :
    tokenizeBody ['a', '!', 'b'] = some (['a', '!', 'b'].filter isUnrecognized) :=
  (c6_unrecognized_nonfatal ['a', '!', 'b']).2 (by decide)

theorem den_mul_div_dvd (q : Rat) (a : ℤ) (b : ℕ) (hb : b ≠ 0) :
    (q * ((a : Rat) / (b : Rat))).den ∣ q.den * b := by
  have hdiv : (a : Rat) / (b : Rat) = Rat.divInt a b := by
    rw [Rat.divInt_eq_div]
    norm_num
  have hq : q = Rat.divInt q.num q.den := (Rat.num_divInt_den q).symm
  have hden : (q.den : ℤ) ≠ 0 := by
    have := q.den_nz
    exact_mod_cast this
  have hbz : (b : ℤ) ≠ 0 := by exact_mod_cast hb
  have hmul : q * ((a : Rat) / (b : Rat)) =
      Rat.divInt (q.num * a) ((q.den : ℤ) * b) := by
    rw [hdiv]
    conv_lhs => rw [hq]
    exact Rat.divInt_mul_divInt q.num a hden hbz
  have hdvd := Rat.den_dvd (q.num * a) ((q.den : ℤ) * b)
  rw [← hmul] at hdvd
  exact_mod_cast hdvd

theorem den_add_dvd (q r : Rat) (D : ℕ) (hD : D ≠ 0)
    (h1 : q.den ∣ D) (h2 : r.den ∣ D) : (q + r).den ∣ D := by
  set c1 := D / q.den with hc1def
  set c2 := D / r.den with hc2def
  have hc1 : q.den * c1 = D := Nat.mul_div_cancel' h1
  have hc2 : r.den * c2 = D := Nat.mul_div_cancel' h2
  have hc1z : (c1 : ℤ) ≠ 0 := by
    intro hz
    have : c1 = 0 := by exact_mod_cast hz
    rw [this, Nat.mul_zero] at hc1
    exact hD hc1.symm
  have hc2z : (c2 : ℤ) ≠ 0 := by
    intro hz
    have : c2 = 0 := by exact_mod_cast hz
    rw [this, Nat.mul_zero] at hc2
    exact hD hc2.symm
  have hq : q = Rat.divInt (q.num * c1) (D : ℤ) := by
    have h := Rat.divInt_mul_right (n := q.num) (d := (q.den : ℤ)) hc1z
    rw [Rat.num_divInt_den q] at h
    have hD' : (q.den : ℤ) * (c1 : ℤ) = (D : ℤ) := by exact_mod_cast hc1
    rw [hD'] at h
    exact h.symm
  have hr : r = Rat.divInt (r.num * c2) (D : ℤ) := by
    have h := Rat.divInt_mul_right (n := r.num) (d := (r.den : ℤ)) hc2z
    rw [Rat.num_divInt_den r] at h
    have hD' : (r.den : ℤ) * (c2 : ℤ) = (D : ℤ) := by exact_mod_cast hc2
    rw [hD'] at h
    exact h.symm
  have hsum : q + r = Rat.divInt (q.num * c1 + r.num * c2) (D : ℤ) := by
    rw [Rat.add_divInt, ← hq, ← hr]
  have hdvd := Rat.den_dvd (q.num * c1 + r.num * c2) (D : ℤ)
  rw [← hsum] at hdvd
  exact_mod_cast hdvd

theorem dvd_two_pow_mul_three {d k : ℕ} (h : d ∣ 2 ^ k * 3) :
    ∃ a b : ℕ, b ≤ 1 ∧ d = 2 ^ a * 3 ^ b := by
  by_cases h3 : 3 ∣ d
  · obtain ⟨e, rfl⟩ := h3
    have he : e ∣ 2 ^ k := by
      have h' : 3 * e ∣ 3 * 2 ^ k := by
        have heq : 2 ^ k * 3 = 3 * 2 ^ k := by ring
        rw [heq] at h
        exact h
      exact (Nat.mul_dvd_mul_iff_left (by norm_num : 0 < 3)).mp h'
    obtain ⟨a, _, rfl⟩ := (Nat.dvd_prime_pow Nat.prime_two).mp he
    exact ⟨a, 1, Nat.le_refl 1, by ring⟩
  · have hcop : Nat.Coprime d 3 :=
      ((Nat.Prime.coprime_iff_not_dvd Nat.prime_three).mpr h3).symm
    have hd2 : d ∣ 2 ^ k := hcop.dvd_of_dvd_mul_right h
    obtain ⟨a, _, rfl⟩ := (Nat.dvd_prime_pow Nat.prime_two).mp hd2
    exact ⟨a, 0, by omega, by ring⟩

theorem dyadic3_iff (q : Rat) : dyadic3 q ↔ ∃ k, q.den ∣ 2 ^ k * 3 := by
  constructor
  · rintro ⟨a, b, hb, hd⟩
    refine ⟨a, ?_⟩
    rw [hd]
    interval_cases b
    · exact ⟨3, by ring⟩
    · exact ⟨1, by ring⟩
  · rintro ⟨k, hk⟩
    exact dvd_two_pow_mul_three hk

theorem dyadic3_mul_halves (q : Rat) (hq : dyadic3 q) (a : ℤ) (c : ℕ) :
    dyadic3 (q * ((a : Rat) / ((2 ^ c : ℕ) : Rat))) := by
  rw [dyadic3_iff] at hq ⊢
  obtain ⟨k, hk⟩ := hq
  refine ⟨k + c, ?_⟩
  have h1 : (q * ((a : Rat) / ((2 ^ c : ℕ) : Rat))).den ∣ q.den * 2 ^ c :=
    den_mul_div_dvd q a (2 ^ c) (by positivity)
  have h2 : q.den * 2 ^ c ∣ 2 ^ k * 3 * 2 ^ c := Nat.mul_dvd_mul_right hk _
  have h3 : 2 ^ k * 3 * 2 ^ c = 2 ^ (k + c) * 3 := by ring
  rw [h3] at h2
  exact h1.trans h2

theorem dyadic3_mul_two_thirds (q : Rat) (h3 : ¬ (3 : ℕ) ∣ q.den)
    (hq : dyadic3 q) : dyadic3 (q * (((2 : ℤ) : Rat) / ((3 : ℕ) : Rat))) := by
  obtain ⟨a, b, hb, hd⟩ := hq
  have hb0 : b = 0 := by
    interval_cases b
    · rfl
    · exfalso
      exact h3 ⟨2 ^ a, by rw [hd]; ring⟩
  subst hb0
  rw [dyadic3_iff]
  refine ⟨a + 1, ?_⟩
  have h1 : (q * (((2 : ℤ) : Rat) / ((3 : ℕ) : Rat))).den ∣ q.den * 3 :=
    den_mul_div_dvd q 2 3 (by norm_num)
  have h2 : q.den * 3 ∣ 2 ^ (a + 1) * 3 := by
    rw [hd]
    have : (2 : ℕ) ^ a * 3 ^ 0 = 2 ^ a := by ring
    rw [this]
    exact Nat.mul_dvd_mul_right (pow_dvd_pow 2 (Nat.le_succ a)) 3
  exact h1.trans h2

theorem dyadic3_add (q r : Rat) (hq : dyadic3 q) (hr : dyadic3 r) :
    dyadic3 (q + r) := by
  rw [dyadic3_iff] at hq hr ⊢
  obtain ⟨k, hk⟩ := hq
  obtain ⟨l, hl⟩ := hr
  refine ⟨max k l, ?_⟩
  refine den_add_dvd q r (2 ^ max k l * 3) (by positivity) ?_ ?_
  · exact hk.trans (Nat.mul_dvd_mul_right (pow_dvd_pow 2 (le_max_left k l)) 3)
  · exact hl.trans (Nat.mul_dvd_mul_right (pow_dvd_pow 2 (le_max_right k l)) 3)

/-- C9 counterexample: the duration shorthand `/5` (explicit divisor 5,
valid per the duration grammar) parses, from unit length 1, to the exact
rational 1/5, whose reduced denominator 5 is not of the form
`2^a * 3^b` with `b ≤ 1`; so not every Duration the core produces
satisfies the claimed denominator invariant. -/
theorem c9_counterexample :
    parseDurSuffix "/5" 1 = some (1 / 5 : Rat) ∧ ¬ dyadic3 (1 / 5 : Rat) := by
  constructor
  · simp +decide [parseDurSuffix, durFactor, startsWithDigit, countSlashes,
      readDigits, digitVal, String.toList]
  · rintro ⟨a, b, hb, hd⟩
    have hden : ((1 : Rat) / 5).den = 5 := by norm_num
    rw [hden] at hd
    interval_cases b
    · have h5 : (2 : ℕ) ^ a = 5 := by
        rw [hd]
        ring
      have ha : a < 3 := by
        by_contra hge
        have hmono : (2 : ℕ) ^ 3 ≤ 2 ^ a := Nat.pow_le_pow_right (by norm_num) (by omega)
        omega
      interval_cases a <;> norm_num at h5
    · have h35 : (3 : ℕ) ∣ 5 := ⟨2 ^ a, by rw [hd]; ring⟩
      exact absurd h35 (by decide)

/-- C9 (amended): every Duration is an exact reduced rational (never a
float — the model carries `Rat` throughout), and the denominator
invariant "a power of two times at most one factor of 3" is preserved by
the core operations: broken-rhythm factors 3/2 and 1/2, triplet scaling
by 2/3 of a not-yet-tripleted duration (denominator without a factor 3),
integer multipliers, shorthand halving, and tie-merging/validator sums;
an explicit divisor with another prime factor (such as `/5`, see the
counterexample) falls outside the invariant. -/
theorem c9_duration_invariant (q r : Rat) (e : Event)
    (hq : dyadic3 q) (hr : dyadic3 r) (he : dyadic3 (eventDur e)) :
    Nat.Coprime q.num.natAbs q.den ∧
    dyadic3 (eventDur (scaleEvent (3 / 2) e)) ∧
    dyadic3 (eventDur (scaleEvent (1 / 2) e)) ∧
    (¬ (3 : ℕ) ∣ (eventDur e).den → dyadic3 (eventDur (scaleEvent (2 / 3) e))) ∧
    (∀ n : ℕ, dyadic3 (q * (n : Rat))) ∧
    dyadic3 (q / 2) ∧
    dyadic3 (q + r) := by
  have hscale : ∀ s : Rat, eventDur (scaleEvent s e) = eventDur e * s := by
    intro s
    cases e <;> simp [scaleEvent, eventDur, mul_comm]
  refine ⟨q.reduced, ?m1, ?m2, ?m3, ?m4, ?m5, dyadic3_add q r hq hr⟩
  · rw [hscale]
    have hfac : (3 / 2 : Rat) = ((3 : ℤ) : Rat) / ((2 ^ 1 : ℕ) : Rat) := by norm_num
    rw [hfac]
    exact dyadic3_mul_halves _ he 3 1
  · rw [hscale]
    have hfac : (1 / 2 : Rat) = ((1 : ℤ) : Rat) / ((2 ^ 1 : ℕ) : Rat) := by norm_num
    rw [hfac]
    exact dyadic3_mul_halves _ he 1 1
  · intro h3
    rw [hscale]
    have hfac : (2 / 3 : Rat) = ((2 : ℤ) : Rat) / ((3 : ℕ) : Rat) := by norm_num
    rw [hfac]
    exact dyadic3_mul_two_thirds _ h3 he
  · intro n
    have hfac : ((n : ℕ) : Rat) = ((n : ℤ) : Rat) / ((2 ^ 0 : ℕ) : Rat) := by
      push_cast
      norm_num
    rw [hfac]
    exact dyadic3_mul_halves _ hq n 0
  · have hfac : q / 2 = q * (((1 : ℤ) : Rat) / ((2 ^ 1 : ℕ) : Rat)) := by
      push_cast
      ring
    rw [hfac]
    exact dyadic3_mul_halves _ hq 1 1

/-- Witness for C9 at `q = 3/4`, `r = 1/6`, `e` an eighth-note rest. -/
theorem c9_duration_invariant_witness :
    dyadic3 ((3 / 4 : Rat) + (1 / 6 : Rat)) := by
  have hall :=
    c9_duration_invariant (3 / 4) (1 / 6) (Event.rest (1 / 8))
      (by rw [dyadic3_iff]; exact ⟨2, by norm_num⟩)
      (by rw [dyadic3_iff]; exact ⟨1, by norm_num⟩)
      (by rw [dyadic3_iff]; exact ⟨3, by norm_num [eventDur]⟩)
  exact (((hall.2).2.2).2.2).2

/-- C10: Note is substitutable for Pitch — a parsed Note supports every
Pitch-derived operation (octave, class value, names, pitch subtraction,
equal-temperament frequency via its exact cent offset), each returning
the same result as the operation applied to the Pitch with the same
value. -/
theorem c10_note_substitutable_for_pitch (s : String) (n : Note)
    (h : fromAbc s = some n) :
    n.toPitch = Pitch.mk n.value ∧
    Note.octave n = Pitch.octave (Pitch.mk n.value) ∧
    Note.classValue n = Pitch.classValue (Pitch.mk n.value) ∧
    Note.className n = Pitch.className (Pitch.mk n.value) ∧
    Note.name n = Pitch.name (Pitch.mk n.value) ∧
    Note.unicodeName n = Pitch.unicodeName (Pitch.mk n.value) ∧
    Note.etfCents n = Pitch.etfCents (Pitch.mk n.value) ∧
    ∀ q : Pitch, Note.sub n q = Pitch.sub (Pitch.mk n.value) q := by
  refine ⟨rfl, rfl, ?v1, rfl, ?v2, rfl, ?v3, fun _ => rfl⟩ <;> rfl

/-- Witness for C10: `Note.from_abc "A2"` is the note A4 (value 57), and
its equal-temperament frequency offset is that of the Pitch of value 57
(zero cents from A440). -/
theorem c10_note_substitutable_for_pitch_witness :
    Note.etfCents ⟨⟨57⟩, 2, false⟩ = Pitch.etfCents (Pitch.mk 57) := by
  have hall :=
    c10_note_substitutable_for_pitch "A2" ⟨⟨57⟩, 2, false⟩
      (by simp +decide [fromAbc, letterBase, countOctaveMarks, durFactor,
        startsWithDigit, readDigits, countSlashes, digitVal, String.toList])
  exact (((hall.2).2.2).2.2).2.1

end PyABC2
